import Mathlib

/-!
Shallow embedding of the punchcard program (`src/lib.rs`).

Bytes are modelled as natural numbers and buffers as `List Nat`; the Rust
`u64` becomes a natural number reduced modulo `2 ^ 64` wherever release-mode
arithmetic can wrap, and `usize` is the 64-bit size type of the program's
BPF target.  Fallible code returns `Except`/`Option`, and a Rust panic
(an out-of-range slice index in `Bits`) is the distinguished error
`ProgramError.panicOutOfBounds`.
-/

/-- The modulus of the Rust `u64` type. -/
def U64_MOD : Nat := 2 ^ 64

/-- The largest `usize` value on the 64-bit target the program is built for. -/
def USIZE_MAX : Nat := 2 ^ 64 - 1

/-- `size_of::<PunchcardHeader>()`: a 32-byte authority followed by the
`u64` fields `capacity` and `claimed`, `repr(C)` with no padding. -/
def PUNCHCARD_HEADER_LEN : Nat := 48

/-- Little-endian value of a byte list: how `bytemuck` reinterprets the
`u64` header fields on the little-endian target. -/
def leU64 (bs : List Nat) : Nat := bs.foldr (fun b acc => b + 256 * acc) 0

/-- The 8 little-endian bytes of a `u64` value. -/
def leBytes (n : Nat) : List Nat :=
  [n % 256, n / 256 % 256, n / 256 ^ 2 % 256, n / 256 ^ 3 % 256,
   n / 256 ^ 4 % 256, n / 256 ^ 5 % 256, n / 256 ^ 6 % 256, n / 256 ^ 7 % 256]

/-- Errors the program can surface.  `invalidAccountData` is
`ProgramError::InvalidAccountData`; the middle four variants are the
program's custom `Error` enum (`ProgramError::Custom(0..3)`);
`panicOutOfBounds` models a Rust panic from an out-of-range slice index. -/
inductive ProgramError
  | invalidAccountData
  | invalidAuthority
  | indexOutOfBounds
  | alreadyClaimed
  | invalidCapacity
  | panicOutOfBounds
  deriving DecidableEq

/-- `bitset_len` (src/lib.rs:39-42): `usize::try_from(capacity)` (which on
the 64-bit target fails for no `u64`), then `checked_add(7)`, then
division by 8. -/
def bitset_len (capacity : Nat) : Option Nat :=
  if capacity ≤ USIZE_MAX then
    if capacity + 7 ≤ USIZE_MAX then some ((capacity + 7) / 8) else none
  else
    none

/-- `Bits::get` (src/lib.rs:22-25): read byte `index / 8` and test the bit
under mask `1 << (index % 8)`.  The `none` branch is the slice access that
panics in Rust. -/
def Bits.get (bs : List Nat) (index : Nat) : Option Bool :=
  if h : index / 8 < bs.length then
    some ((bs[index / 8] &&& (1 <<< (index % 8))) != 0)
  else
    none

/-- `Bits::set` (src/lib.rs:27-29): or `1 << (index % 8)` into byte
`index / 8`; the `none` branch is the slice access that panics in Rust. -/
def Bits.set (bs : List Nat) (index : Nat) : Option (List Nat) :=
  if h : index / 8 < bs.length then
    some (bs.set (index / 8) (bs[index / 8] ||| (1 <<< (index % 8))))
  else
    none

/-- The `Punchcard` view (src/lib.rs:32-35): the header fields together
with the bitset region of one buffer. -/
structure Punchcard where
  authority : List Nat
  capacity : Nat
  claimed : Nat
  bits : List Nat
  deriving DecidableEq

/-- The `capacity` header field of a raw buffer: bytes 32-39, little endian. -/
def decodeCapacity (data : List Nat) : Nat := leU64 ((data.drop 32).take 8)

/-- The `claimed` header field of a raw buffer: bytes 40-47, little endian. -/
def decodeClaimed (data : List Nat) : Nat := leU64 ((data.drop 40).take 8)

/-- `Punchcard::space` (src/lib.rs:45-48):
`PUNCHCARD_HEADER_LEN.checked_add(bitset_len(capacity)?)`. -/
def Punchcard.space (capacity : Nat) : Option Nat :=
  match bitset_len capacity with
  | none => none
  | some bits_len =>
    if PUNCHCARD_HEADER_LEN + bits_len ≤ USIZE_MAX then
      some (PUNCHCARD_HEADER_LEN + bits_len)
    else
      none

/-- `Punchcard::from_bytes` (src/lib.rs:62-78) with `Punchcard::split`
(src/lib.rs:50-60) inlined: header-length check, byte-for-byte header
reinterpretation, bitset length check against `bitset_len(capacity)`, and
the `claimed ≤ capacity` check. -/
def Punchcard.from_bytes (data : List Nat) : Except ProgramError Punchcard :=
  if data.length < PUNCHCARD_HEADER_LEN then
    .error .invalidAccountData
  else
    match bitset_len (decodeCapacity data) with
    | none => .error .invalidCapacity
    | some expected_bits_len =>
      if (data.drop PUNCHCARD_HEADER_LEN).length ≠ expected_bits_len then
        .error .invalidAccountData
      else if decodeClaimed data > decodeCapacity data then
        .error .invalidAccountData
      else
        .ok ⟨data.take 32, decodeCapacity data, decodeClaimed data,
             data.drop PUNCHCARD_HEADER_LEN⟩

/-- `Punchcard::claim` (src/lib.rs:80-87).  Returns the punchcard as left
in memory paired with the error, if any: on `AlreadyClaimed` (and on the
panicking access) nothing has been mutated yet.  The `claimed` increment
wraps like release-mode `u64` addition. -/
def Punchcard.claim (p : Punchcard) (index : Nat) : Punchcard × Option ProgramError :=
  match Bits.get p.bits index with
  | none => (p, some .panicOutOfBounds)
  | some true => (p, some .alreadyClaimed)
  | some false =>
    match Bits.set p.bits index with
    | none => (p, some .panicOutOfBounds)
    | some bits' => ({ p with bits := bits', claimed := (p.claimed + 1) % U64_MOD }, none)

/-- The bytes a punchcard view leaves in its buffer when the mutable
borrow ends: the header fields re-serialised little endian, then the
bitset. -/
def Punchcard.toBytes (p : Punchcard) : List Nat :=
  p.authority ++ leBytes p.capacity ++ leBytes p.claimed ++ p.bits

/-- The index loop of the `claim` processor (src/lib.rs:173-178): left to
right, each index is checked against `capacity` before `Punchcard::claim`
runs.  Returns the punchcard as left in memory paired with the first
error. -/
def claimLoop (p : Punchcard) : List Nat → Punchcard × Option ProgramError
  | [] => (p, none)
  | index :: rest =>
    if index ≥ p.capacity then (p, some .indexOutOfBounds)
    else
      match p.claim index with
      | (p', none) => claimLoop p' rest
      | (p', some e) => (p', some e)

/-- Observable outcome of a successful `claim` processor call: the
authority's and the record's lamport balances, the record's data, and
whether the record was closed. -/
structure ClaimOutcome where
  authorityLamports : Nat
  recordLamports : Nat
  recordData : List Nat
  closed : Bool
  deriving DecidableEq

/-- The `claim` processor (src/lib.rs:153-191) after its host-boundary
checks (signer and owner): parse the record, check the stored authority,
run the index loop, and, when `claimed == capacity` afterwards, move the
record's whole lamport balance to the authority (release-mode `u64`
addition wraps), zero the record's bytes and close it. -/
def claim (authorityKey : List Nat) (authorityLamports recordLamports : Nat)
    (recordData : List Nat) (indices : List Nat) : Except ProgramError ClaimOutcome :=
  match Punchcard.from_bytes recordData with
  | .error e => .error e
  | .ok card =>
    if card.authority ≠ authorityKey then .error .invalidAuthority
    else
      match claimLoop card indices with
      | (_, some e) => .error e
      | (card', none) =>
        if card'.claimed = card'.capacity then
          .ok ⟨(authorityLamports + recordLamports) % U64_MOD, 0,
               List.replicate recordData.length 0, true⟩
        else
          .ok ⟨authorityLamports, recordLamports, card'.toBytes, false⟩

/-- The `create` processor (src/lib.rs:126-151) after its host-boundary
steps: compute `space` (failing with `InvalidCapacity` on overflow), then
write the payer's key as authority, the requested capacity, `claimed = 0`
and a zeroed bitset into the freshly allocated buffer.  Returns the
record's buffer. -/
def create (payerKey : List Nat) (capacity : Nat) : Except ProgramError (List Nat) :=
  match Punchcard.space capacity with
  | none => .error .invalidCapacity
  | some sz =>
    .ok (payerKey ++ leBytes capacity ++ leBytes 0 ++
         List.replicate (sz - PUNCHCARD_HEADER_LEN) 0)

/-- Number of set bits at indices below `cap`: how many claimed slots the
bitset actually records. -/
def setBitsBelow (bs : List Nat) (cap : Nat) : Nat :=
  ((Finset.range cap).filter fun i => Bits.get bs i = some true).card

/-- A buffer whose header says `capacity = 1, claimed = 1` while bit 0 of
its one-byte bitset is still clear. -/
def fullyClaimedBuf : List Nat := List.replicate 32 0 ++ leBytes 1 ++ leBytes 1 ++ [0]

/-- A freshly created capacity-16 punchcard view. -/
def card16 : Punchcard := ⟨List.replicate 32 0, 16, 0, [0, 0]⟩

/-! ## Basic lemmas about the bit view -/

theorem and_shift_ne_eq_testBit (b r : Nat) : ((b &&& (1 <<< r)) != 0) = b.testBit r := by
  rw [Nat.shiftLeft_eq, one_mul, Nat.and_two_pow]
  cases h : b.testBit r <;> simp [h]

theorem Bits.get_eq_testBit (bs : List Nat) (i : Nat) (h : i / 8 < bs.length) :
    Bits.get bs i = some (bs[i / 8].testBit (i % 8)) := by
  rw [Bits.get, dif_pos h, and_shift_ne_eq_testBit]

theorem Bits.get_bound {bs : List Nat} {i : Nat} {b : Bool}
    (h : Bits.get bs i = some b) : i / 8 < bs.length := by
  by_contra hn
  rw [Bits.get, dif_neg hn] at h
  exact Option.noConfusion h

theorem Bits.set_eq (bs : List Nat) (i : Nat) (h : i / 8 < bs.length) :
    Bits.set bs i = some (bs.set (i / 8) (bs[i / 8] ||| (1 <<< (i % 8)))) := by
  rw [Bits.set, dif_pos h]

theorem Bits.get_set_self (bs : List Nat) (i : Nat) (h : i / 8 < bs.length) :
    Bits.get (bs.set (i / 8) (bs[i / 8] ||| (1 <<< (i % 8)))) i = some true := by
  have hlen : i / 8 < (bs.set (i / 8) (bs[i / 8] ||| (1 <<< (i % 8)))).length := by
    simpa using h
  rw [Bits.get_eq_testBit _ _ hlen]
  have hbyte : (bs.set (i / 8) (bs[i / 8] ||| (1 <<< (i % 8))))[i / 8] =
      bs[i / 8] ||| (1 <<< (i % 8)) := List.getElem_set_self (by simpa using h)
  rw [hbyte, Nat.shiftLeft_eq, one_mul, Nat.testBit_or, Nat.testBit_two_pow_self,
    Bool.or_true]

theorem Bits.get_set_ne (bs : List Nat) (i j : Nat) (h : i / 8 < bs.length)
    (hij : j ≠ i) :
    Bits.get (bs.set (i / 8) (bs[i / 8] ||| (1 <<< (i % 8)))) j = Bits.get bs j := by
  by_cases hb : j / 8 < bs.length
  · have hb' : j / 8 < (bs.set (i / 8) (bs[i / 8] ||| (1 <<< (i % 8)))).length := by
      simpa using hb
    rw [Bits.get_eq_testBit _ _ hb', Bits.get_eq_testBit _ _ hb]
    by_cases hbyte : j / 8 = i / 8
    · have hbit : i % 8 ≠ j % 8 := by omega
      simp only [hbyte]
      rw [List.getElem_set_self (by simpa using h), Nat.shiftLeft_eq, one_mul,
        Nat.testBit_or, Nat.testBit_two_pow_of_ne hbit, Bool.or_false]
    · have hget : (bs.set (i / 8) (bs[i / 8] ||| (1 <<< (i % 8))))[j / 8] = bs[j / 8] :=
        List.getElem_set_ne (fun hc => hbyte hc.symm) _
      rw [hget]
  · have hb' : ¬ j / 8 < (bs.set (i / 8) (bs[i / 8] ||| (1 <<< (i % 8)))).length := by
      simpa using hb
    rw [Bits.get, dif_neg hb', Bits.get, dif_neg hb]

/-! ## Lemmas about the single-slot claim transition -/

theorem Punchcard.claim_of_get_none {p : Punchcard} {i : Nat}
    (h : Bits.get p.bits i = none) :
    p.claim i = (p, some ProgramError.panicOutOfBounds) := by
  simp only [Punchcard.claim, h]

theorem Punchcard.claim_of_get_true {p : Punchcard} {i : Nat}
    (h : Bits.get p.bits i = some true) :
    p.claim i = (p, some ProgramError.alreadyClaimed) := by
  simp only [Punchcard.claim, h]

theorem Punchcard.claim_of_get_false {p : Punchcard} {i : Nat}
    (hlt : i / 8 < p.bits.length) (h : Bits.get p.bits i = some false) :
    p.claim i =
      (⟨p.authority, p.capacity, (p.claimed + 1) % U64_MOD,
        p.bits.set (i / 8) (p.bits[i / 8] ||| (1 <<< (i % 8)))⟩, none) := by
  simp only [Punchcard.claim, h, Bits.set_eq p.bits i hlt]

theorem Punchcard.claim_success {p p' : Punchcard} {i : Nat}
    (h : p.claim i = (p', none)) :
    ∃ hlt : i / 8 < p.bits.length,
      Bits.get p.bits i = some false ∧
      p' = ⟨p.authority, p.capacity, (p.claimed + 1) % U64_MOD,
            p.bits.set (i / 8) (p.bits[i / 8] ||| (1 <<< (i % 8)))⟩ := by
  cases hg : Bits.get p.bits i with
  | none =>
    rw [Punchcard.claim_of_get_none hg] at h
    exact absurd (congrArg Prod.snd h) (by simp)
  | some b =>
    cases b with
    | true =>
      rw [Punchcard.claim_of_get_true hg] at h
      exact absurd (congrArg Prod.snd h) (by simp)
    | false =>
      have hlt : i / 8 < p.bits.length := Bits.get_bound hg
      rw [Punchcard.claim_of_get_false hlt hg] at h
      exact ⟨hlt, rfl, (congrArg Prod.fst h).symm⟩

theorem Punchcard.claim_error_unchanged {p : Punchcard} {i : Nat} {e : ProgramError}
    (h : (p.claim i).2 = some e) : (p.claim i).1 = p := by
  cases hg : Bits.get p.bits i with
  | none => rw [Punchcard.claim_of_get_none hg]
  | some b =>
    cases b with
    | true => rw [Punchcard.claim_of_get_true hg]
    | false =>
      have hlt : i / 8 < p.bits.length := Bits.get_bound hg
      rw [Punchcard.claim_of_get_false hlt hg] at h
      simp at h

theorem Punchcard.claim_capacity_authority (p : Punchcard) (i : Nat) :
    (p.claim i).1.capacity = p.capacity ∧ (p.claim i).1.authority = p.authority := by
  cases hg : Bits.get p.bits i with
  | none => rw [Punchcard.claim_of_get_none hg]; exact ⟨rfl, rfl⟩
  | some b =>
    cases b with
    | true => rw [Punchcard.claim_of_get_true hg]; exact ⟨rfl, rfl⟩
    | false =>
      have hlt : i / 8 < p.bits.length := Bits.get_bound hg
      rw [Punchcard.claim_of_get_false hlt hg]
      exact ⟨rfl, rfl⟩

/-! ## Lemmas about the claim processor loop -/

theorem claimLoop_nil (p : Punchcard) : claimLoop p [] = (p, none) := rfl

theorem claimLoop_cons_oob (p : Punchcard) (i : Nat) (rest : List Nat)
    (h : p.capacity ≤ i) :
    claimLoop p (i :: rest) = (p, some ProgramError.indexOutOfBounds) := by
  simp only [claimLoop, if_pos h]

theorem claimLoop_cons_ok {p p' : Punchcard} {i : Nat} (hlt : i < p.capacity)
    (h : p.claim i = (p', none)) (rest : List Nat) :
    claimLoop p (i :: rest) = claimLoop p' rest := by
  simp only [claimLoop, if_neg (not_le.mpr hlt), h]

theorem claimLoop_cons_err {p p' : Punchcard} {i : Nat} {e : ProgramError}
    (hlt : i < p.capacity) (h : p.claim i = (p', some e)) (rest : List Nat) :
    claimLoop p (i :: rest) = (p', some e) := by
  simp only [claimLoop, if_neg (not_le.mpr hlt), h]

theorem claimLoop_capacity_authority (p : Punchcard) (is : List Nat) :
    (claimLoop p is).1.capacity = p.capacity ∧
    (claimLoop p is).1.authority = p.authority := by
  induction is generalizing p with
  | nil => exact ⟨rfl, rfl⟩
  | cons i rest ih =>
    by_cases hc : p.capacity ≤ i
    · rw [claimLoop_cons_oob p i rest hc]
      exact ⟨rfl, rfl⟩
    · cases hcl : p.claim i with
      | mk p' err =>
      have hpres := Punchcard.claim_capacity_authority p i
      rw [hcl] at hpres
      cases err with
      | none =>
        rw [claimLoop_cons_ok (not_le.mp hc) hcl rest]
        have := ih p'
        exact ⟨this.1.trans hpres.1, this.2.trans hpres.2⟩
      | some e =>
        rw [claimLoop_cons_err (not_le.mp hc) hcl rest]
        exact hpres

theorem claimLoop_append_of_none (p : Punchcard) (pre rest : List Nat)
    (h : (claimLoop p pre).2 = none) :
    claimLoop p (pre ++ rest) = claimLoop (claimLoop p pre).1 rest := by
  induction pre generalizing p with
  | nil => rfl
  | cons i pre ih =>
    by_cases hc : p.capacity ≤ i
    · rw [claimLoop_cons_oob p i pre hc] at h
      exact absurd h (by simp)
    · cases hcl : p.claim i with
      | mk p' err =>
      cases err with
      | none =>
        rw [List.cons_append, claimLoop_cons_ok (not_le.mp hc) hcl (pre ++ rest),
          claimLoop_cons_ok (not_le.mp hc) hcl pre]
        rw [claimLoop_cons_ok (not_le.mp hc) hcl pre] at h
        exact ih p' h
      | some e =>
        rw [claimLoop_cons_err (not_le.mp hc) hcl pre] at h
        exact absurd h (by simp)

/-! ## Lemmas about the bitset population count -/

theorem setBitsBelow_le (bs : List Nat) (cap : Nat) : setBitsBelow bs cap ≤ cap := by
  calc ((Finset.range cap).filter fun i => Bits.get bs i = some true).card
      ≤ (Finset.range cap).card := Finset.card_filter_le _ _
    _ = cap := Finset.card_range cap

theorem setBitsBelow_lt_of_unset {bs : List Nat} {cap i : Nat} (hi : i < cap)
    (h : Bits.get bs i = some false) : setBitsBelow bs cap < cap := by
  have hsub : ((Finset.range cap).filter fun j => Bits.get bs j = some true) ⊆
      (Finset.range cap).erase i := by
    intro j hj
    rw [Finset.mem_filter] at hj
    rw [Finset.mem_erase]
    refine ⟨?_, hj.1⟩
    intro hji
    subst hji
    rw [h] at hj
    exact absurd hj.2 (by simp)
  have hcard := Finset.card_le_card hsub
  rw [Finset.card_erase_of_mem (Finset.mem_range.mpr hi), Finset.card_range] at hcard
  have hle : setBitsBelow bs cap ≤ cap - 1 := hcard
  omega

theorem setBitsBelow_set_succ {bs : List Nat} {cap i : Nat} (hi : i < cap)
    (hlt : i / 8 < bs.length) (h : Bits.get bs i = some false) :
    setBitsBelow (bs.set (i / 8) (bs[i / 8] ||| (1 <<< (i % 8)))) cap =
      setBitsBelow bs cap + 1 := by
  unfold setBitsBelow
  have hset : ((Finset.range cap).filter fun j =>
        Bits.get (bs.set (i / 8) (bs[i / 8] ||| (1 <<< (i % 8)))) j = some true) =
      insert i ((Finset.range cap).filter fun j => Bits.get bs j = some true) := by
    ext j
    simp only [Finset.mem_filter, Finset.mem_insert, Finset.mem_range]
    by_cases hji : j = i
    · subst hji
      simp [Bits.get_set_self bs j hlt, hi]
    · rw [Bits.get_set_ne bs i j hlt hji]
      constructor
      · rintro ⟨h1, h2⟩
        exact Or.inr ⟨h1, h2⟩
      · rintro (rfl | ⟨h1, h2⟩)
        · exact absurd rfl hji
        · exact ⟨h1, h2⟩
  rw [hset, Finset.card_insert_of_not_mem]
  intro hmem
  rw [Finset.mem_filter, h] at hmem
  exact absurd hmem.2 (by simp)

/-! ## Lemmas about parsing and capacity arithmetic -/

theorem bitset_len_eq {capacity ebl : Nat} (h : bitset_len capacity = some ebl) :
    ebl = (capacity + 7) / 8 ∧ capacity + 7 ≤ USIZE_MAX := by
  unfold bitset_len at h
  split at h
  · split at h
    · exact ⟨(Option.some.inj h).symm, by assumption⟩
    · exact absurd h (by simp)
  · exact absurd h (by simp)

theorem bitset_len_of_le {capacity : Nat} (h : capacity + 7 ≤ USIZE_MAX) :
    bitset_len capacity = some ((capacity + 7) / 8) := by
  unfold bitset_len
  rw [if_pos (by omega), if_pos h]

theorem space_eq {capacity sz : Nat} (h : Punchcard.space capacity = some sz) :
    sz = PUNCHCARD_HEADER_LEN + (capacity + 7) / 8 ∧ capacity + 7 ≤ USIZE_MAX := by
  unfold Punchcard.space at h
  split at h
  · exact absurd h (by simp)
  · rename_i bits_len hbl
    obtain ⟨hebl, hcap⟩ := bitset_len_eq hbl
    subst hebl
    split at h
    · exact ⟨(Option.some.inj h).symm, hcap⟩
    · exact absurd h (by simp)

theorem from_bytes_ok {data : List Nat} {card : Punchcard}
    (h : Punchcard.from_bytes data = .ok card) :
    PUNCHCARD_HEADER_LEN ≤ data.length ∧
    card.authority = data.take 32 ∧
    card.capacity = decodeCapacity data ∧
    card.claimed = decodeClaimed data ∧
    card.bits = data.drop PUNCHCARD_HEADER_LEN ∧
    card.bits.length = (card.capacity + 7) / 8 ∧
    card.claimed ≤ card.capacity := by
  unfold Punchcard.from_bytes at h
  split at h
  · exact absurd h (by simp)
  · rename_i hlen
    split at h
    · exact absurd h (by simp)
    · rename_i ebl hbl
      obtain ⟨hebl, -⟩ := bitset_len_eq hbl
      split at h
      · exact absurd h (by simp)
      · rename_i hblen
        split at h
        · exact absurd h (by simp)
        · rename_i hcc
          have hcard := (Except.ok.inj h).symm
          subst hcard
          rw [not_not] at hblen
          refine ⟨by omega, rfl, rfl, rfl, rfl, ?_, ?_⟩
          · exact hblen.trans hebl
          · exact not_lt.mp hcc

/-! ## C1 -/

/-- C1: `Punchcard.from_bytes` fails closed whenever the buffer is shorter
than the 48-byte header, or the bitset region length (buffer length minus
48) differs from `ceil(capacity / 8)` (computed as `(capacity + 7) / 8`),
or the header's `claimed` exceeds its `capacity`: no view is returned. -/
theorem from_bytes_fails_closed (data : List Nat)
    (h : data.length < PUNCHCARD_HEADER_LEN ∨
         data.length - PUNCHCARD_HEADER_LEN ≠ (decodeCapacity data + 7) / 8 ∨
         decodeCapacity data < decodeClaimed data) :
    ∃ e, Punchcard.from_bytes data = .error e := by
  cases hfb : Punchcard.from_bytes data with
  | error e => exact ⟨e, rfl⟩
  | ok card =>
    exfalso
    obtain ⟨hlen, -, hcap, hcl, hbits, hblen, hle⟩ := from_bytes_ok hfb
    rcases h with h | h | h
    · omega
    · have h1 : card.bits.length = data.length - PUNCHCARD_HEADER_LEN := by
        rw [hbits, List.length_drop]
      rw [h1, hcap] at hblen
      exact h hblen
    · rw [hcap, hcl] at hle
      omega

/-- Witness for C1 at the empty buffer. -/
theorem from_bytes_fails_closed_witness :
    ∃ e, Punchcard.from_bytes [] = .error e :=
  from_bytes_fails_closed [] (Or.inl (by decide))

/-! ## C2 -/

/-- C2: on the 64-bit target `Punchcard.space` is a total function that
returns `some (48 + ceil(capacity / 8))` (the ceiling computed as
`(capacity + 7) / 8`) exactly when the `capacity + 7` step fits in `usize`,
and `none` whenever that computation would overflow — never a wrapped
value; in particular `u64::MAX` down to `u64::MAX - 6` overflow while
`u64::MAX - 7` succeeds. -/
theorem space_spec (c : Nat) (hc : c < U64_MOD) :
    (c + 7 ≤ USIZE_MAX → Punchcard.space c = some (PUNCHCARD_HEADER_LEN + (c + 7) / 8)) ∧
    (USIZE_MAX < c + 7 → Punchcard.space c = none) ∧
    Punchcard.space (U64_MOD - 1) = none ∧
    Punchcard.space (U64_MOD - 2) = none ∧
    Punchcard.space (U64_MOD - 7) = none ∧
    Punchcard.space (U64_MOD - 8) = some (PUNCHCARD_HEADER_LEN + (U64_MOD - 1) / 8) := by
  have hU : USIZE_MAX = 18446744073709551615 := by norm_num [USIZE_MAX]
  have hM : U64_MOD = 18446744073709551616 := by norm_num [U64_MOD]
  have hH : PUNCHCARD_HEADER_LEN = 48 := rfl
  refine ⟨?_, ?_, by decide, by decide, by decide, by decide⟩
  · intro h7
    simp only [Punchcard.space, bitset_len_of_le h7]
    rw [if_pos (by rw [hU] at h7 ⊢; rw [hH]; omega)]
  · intro h7
    have hcle : c ≤ USIZE_MAX := by omega
    simp only [Punchcard.space, bitset_len, if_pos hcle, if_neg (not_le.mpr h7)]

/-- Witness for C2 at capacity 9. -/
theorem space_spec_witness :
    Punchcard.space 9 = some (PUNCHCARD_HEADER_LEN + (9 + 7) / 8) :=
  (space_spec 9 (by decide)).1 (by decide)

/-! ## C4 -/

/-- C4: claiming an in-range index whose bit is already set fails with
`AlreadyClaimed` and performs no mutation — the returned state is exactly
the input state; consequently, of two claims of the same index the second
always fails with `AlreadyClaimed` and leaves the state unchanged. -/
theorem claim_already_claimed :
    (∀ (p : Punchcard) (i : Nat), i < p.capacity →
        p.bits.length = (p.capacity + 7) / 8 →
        Bits.get p.bits i = some true →
        p.claim i = (p, some ProgramError.alreadyClaimed)) ∧
    (∀ (p p' : Punchcard) (i : Nat), p.claim i = (p', none) →
        p'.claim i = (p', some ProgramError.alreadyClaimed)) := by
  constructor
  · intro p i _ _ hget
    exact Punchcard.claim_of_get_true hget
  · intro p p' i h
    obtain ⟨hlt, hget, rfl⟩ := Punchcard.claim_success h
    exact Punchcard.claim_of_get_true (Bits.get_set_self p.bits i hlt)

/-- Witness for C4: a capacity-1 card with bit 0 set rejects a second
claim of index 0. -/
theorem claim_already_claimed_witness :
    Punchcard.claim ⟨List.replicate 32 0, 1, 1, [1]⟩ 0 =
      (⟨List.replicate 32 0, 1, 1, [1]⟩, some ProgramError.alreadyClaimed) :=
  claim_already_claimed.1 ⟨List.replicate 32 0, 1, 1, [1]⟩ 0 (by decide) (by decide)
    (by decide)

/-! ## C9 -/

/-- C9: for any punchcard accepted by `from_bytes` (so its bitset has
exactly `(capacity + 7) / 8` bytes) and any `index < capacity`, the byte
access at `index / 8` performed by `Bits.get` and `Bits.set` is within the
bitset's bounds, so the panicking out-of-range branch is unreachable. -/
theorem bits_access_in_bounds (data : List Nat) (card : Punchcard) (index : Nat)
    (hfb : Punchcard.from_bytes data = .ok card) (hi : index < card.capacity) :
    index / 8 < card.bits.length ∧
    (Bits.get card.bits index).isSome = true ∧
    (Bits.set card.bits index).isSome = true := by
  obtain ⟨-, -, -, -, -, hblen, -⟩ := from_bytes_ok hfb
  have hlt : index / 8 < card.bits.length := by
    rw [hblen]
    omega
  refine ⟨hlt, ?_, ?_⟩
  · rw [Bits.get, dif_pos hlt]
    rfl
  · rw [Bits.set, dif_pos hlt]
    rfl

/-- Witness for C9 on the accepted buffer `fullyClaimedBuf` at index 0. -/
theorem bits_access_in_bounds_witness :
    (0 : Nat) / 8 < ([0] : List Nat).length ∧
    (Bits.get [0] 0).isSome = true ∧
    (Bits.set [0] 0).isSome = true :=
  bits_access_in_bounds fullyClaimedBuf ⟨List.replicate 32 0, 1, 1, [0]⟩ 0 (by rfl)
    (by decide)

/-! ## C5 -/

/-- C5: the claim processor's loop runs left to right and checks each
index against `capacity` before claiming; once the claims before it have
succeeded, the first index `≥ capacity` fails the whole operation with
`IndexOutOfBounds`, and a single out-of-range index leaves the bitset and
the `claimed` counter exactly unchanged. -/
theorem claimLoop_index_out_of_bounds (p : Punchcard) (pre : List Nat) (i : Nat)
    (rest : List Nat) (hpre : (claimLoop p pre).2 = none) (hi : p.capacity ≤ i) :
    claimLoop p (pre ++ i :: rest) =
      ((claimLoop p pre).1, some ProgramError.indexOutOfBounds) ∧
    claimLoop p [i] = (p, some ProgramError.indexOutOfBounds) := by
  have hcap := (claimLoop_capacity_authority p pre).1
  constructor
  · rw [claimLoop_append_of_none p pre (i :: rest) hpre]
    exact claimLoop_cons_oob _ i rest (by rw [hcap]; exact hi)
  · exact claimLoop_cons_oob p i [] hi

/-- Witness for C5 on a fresh capacity-16 card: index 16 is rejected after
the successful prefix [0]. -/
theorem claimLoop_index_out_of_bounds_witness :
    claimLoop card16 ([0] ++ 16 :: [1]) =
      ((claimLoop card16 [0]).1, some ProgramError.indexOutOfBounds) ∧
    claimLoop card16 [16] = (card16, some ProgramError.indexOutOfBounds) :=
  claimLoop_index_out_of_bounds card16 [0] 16 [1] (by rfl) (by decide)

/-! ## C3 -/

/-- C3 counterexample: `from_bytes` accepts the buffer `fullyClaimedBuf`,
whose header says `claimed = capacity = 1` while bit 0 is still clear, and
the single in-range claim of index 0 on the accepted view succeeds and
drives `claimed` to `2 > capacity`, violating `claimed ≤ capacity`. -/
theorem claimed_exceeds_capacity_counterexample :
    Punchcard.from_bytes fullyClaimedBuf = .ok ⟨List.replicate 32 0, 1, 1, [0]⟩ ∧
    claimLoop ⟨List.replicate 32 0, 1, 1, [0]⟩ [0] =
      (⟨List.replicate 32 0, 1, 2, [1]⟩, none) ∧
    ¬ ((claimLoop ⟨List.replicate 32 0, 1, 1, [0]⟩ [0]).1.claimed ≤
        (claimLoop ⟨List.replicate 32 0, 1, 1, [0]⟩ [0]).1.capacity) :=
  ⟨by rfl, by rfl, by decide⟩

/-- C3 (amended): for every punchcard whose `claimed` count is at most the
number of bits actually set below `capacity` — which holds for every
punchcard the program itself writes, `from_bytes` alone does not enforce
it — and whose `capacity` is a `u64` value, every sequence of claim
operations (succeeding or failing) keeps `0 ≤ claimed ≤ capacity`, never
decreases `claimed`, and never mutates `capacity`. -/
theorem claim_sequence_invariants (p : Punchcard) (indices : List Nat)
    (hinv : p.claimed ≤ setBitsBelow p.bits p.capacity)
    (hcap : p.capacity < U64_MOD) :
    (claimLoop p indices).1.capacity = p.capacity ∧
    p.claimed ≤ (claimLoop p indices).1.claimed ∧
    (claimLoop p indices).1.claimed ≤
      setBitsBelow (claimLoop p indices).1.bits p.capacity ∧
    (claimLoop p indices).1.claimed ≤ (claimLoop p indices).1.capacity := by
  induction indices generalizing p with
  | nil => exact ⟨rfl, le_refl _, hinv, hinv.trans (setBitsBelow_le _ _)⟩
  | cons i rest ih =>
    by_cases hc : p.capacity ≤ i
    · rw [claimLoop_cons_oob p i rest hc]
      exact ⟨rfl, le_refl _, hinv, hinv.trans (setBitsBelow_le _ _)⟩
    · have hc' : i < p.capacity := not_le.mp hc
      cases hcl : p.claim i with
      | mk p' err =>
      cases err with
      | some e =>
        rw [claimLoop_cons_err hc' hcl rest]
        have h2 : (p.claim i).2 = some e := by rw [hcl]
        have h1 := Punchcard.claim_error_unchanged h2
        rw [hcl] at h1
        have hp' : p' = p := h1
        subst hp'
        exact ⟨rfl, le_refl _, hinv, hinv.trans (setBitsBelow_le _ _)⟩
      | none =>
        rw [claimLoop_cons_ok hc' hcl rest]
        obtain ⟨hlt, hget, hp'⟩ := Punchcard.claim_success hcl
        have hsb : setBitsBelow p.bits p.capacity < p.capacity :=
          setBitsBelow_lt_of_unset hc' hget
        have hnowrap : (p.claimed + 1) % U64_MOD = p.claimed + 1 :=
          Nat.mod_eq_of_lt (by omega)
        have hcap' : p'.capacity = p.capacity := by rw [hp']
        have hclaimed' : p'.claimed = p.claimed + 1 := by rw [hp']; exact hnowrap
        have hbits' : setBitsBelow p'.bits p.capacity =
            setBitsBelow p.bits p.capacity + 1 := by
          rw [hp']
          exact setBitsBelow_set_succ hc' hlt hget
        have hinv' : p'.claimed ≤ setBitsBelow p'.bits p'.capacity := by
          rw [hclaimed', hcap', hbits']
          omega
        have hrec := ih p' hinv' (by rw [hcap']; exact hcap)
        refine ⟨hrec.1.trans hcap', ?_, ?_, hrec.2.2.2⟩
        · exact le_trans (by omega) hrec.2.1
        · rw [← hcap']
          exact hrec.2.2.1

/-- Witness for C3 (amended) on a fresh capacity-16 card and the claim
sequence [0, 3]. -/
theorem claim_sequence_invariants_witness :
    (claimLoop card16 [0, 3]).1.capacity = card16.capacity ∧
    card16.claimed ≤ (claimLoop card16 [0, 3]).1.claimed ∧
    (claimLoop card16 [0, 3]).1.claimed ≤
      setBitsBelow (claimLoop card16 [0, 3]).1.bits card16.capacity ∧
    (claimLoop card16 [0, 3]).1.claimed ≤ (claimLoop card16 [0, 3]).1.capacity :=
  claim_sequence_invariants card16 [0, 3] (by decide) (by decide)

/-! ## C8 -/

/-- C8: a successful claim of index `i` ors exactly the mask
`1 <<< (i % 8)` into byte `i / 8` — afterwards `Bits.get` reads bit `i` as
set and every other bit is unchanged; concretely, the batch {0,3,7,12} on
a fresh capacity-16 card yields bytes [0b10001001, 0b00010000] = [137, 16]
with `claimed = 4`, and the single claim {5} yields byte 0 =
0b00100000 = 32 with `claimed = 1`. -/
theorem bit_addressing :
    (∀ (p p' : Punchcard) (i : Nat), p.claim i = (p', none) →
        (∀ h : i / 8 < p.bits.length,
            p'.bits = p.bits.set (i / 8) (p.bits[i / 8] ||| (1 <<< (i % 8)))) ∧
        Bits.get p'.bits i = some true ∧
        (∀ j, j ≠ i → Bits.get p'.bits j = Bits.get p.bits j)) ∧
    claimLoop card16 [0, 3, 7, 12] =
      (⟨List.replicate 32 0, 16, 4, [137, 16]⟩, none) ∧
    claimLoop card16 [5] = (⟨List.replicate 32 0, 16, 1, [32, 0]⟩, none) := by
  refine ⟨?_, by rfl, by rfl⟩
  intro p p' i h
  obtain ⟨hlt, hget, rfl⟩ := Punchcard.claim_success h
  exact ⟨fun _ => rfl, Bits.get_set_self p.bits i hlt,
    fun j hj => Bits.get_set_ne p.bits i j hlt hj⟩

/-- Witness for C8: after claiming index 5 on a fresh capacity-16 card,
bit 5 reads as set and bit 3 is unchanged. -/
theorem bit_addressing_witness :
    Bits.get (⟨List.replicate 32 0, 16, 1, [32, 0]⟩ : Punchcard).bits 5 = some true ∧
    Bits.get (⟨List.replicate 32 0, 16, 1, [32, 0]⟩ : Punchcard).bits 3 =
      Bits.get card16.bits 3 :=
  ⟨(bit_addressing.1 card16 ⟨List.replicate 32 0, 16, 1, [32, 0]⟩ 5 (by rfl)).2.1,
   (bit_addressing.1 card16 ⟨List.replicate 32 0, 16, 1, [32, 0]⟩ 5 (by rfl)).2.2 3
     (by decide)⟩

/-! ## C10 -/

/-- C10: `from_bytes` never inspects the bitset's contents — it accepts
every buffer whose length equals `space(header.capacity)` and whose
`claimed ≤ capacity`, whatever the bitset holds; in particular it accepts
`fullyClaimedBuf` with `claimed = capacity = 1` and bit 0 clear, on which
`claim 0` succeeds and leaves `claimed = capacity + 1 = 2`. -/
theorem from_bytes_ignores_bitset :
    (∀ data : List Nat,
        Punchcard.space (decodeCapacity data) = some data.length →
        decodeClaimed data ≤ decodeCapacity data →
        Punchcard.from_bytes data =
          .ok ⟨data.take 32, decodeCapacity data, decodeClaimed data,
               data.drop PUNCHCARD_HEADER_LEN⟩) ∧
    Punchcard.from_bytes fullyClaimedBuf = .ok ⟨List.replicate 32 0, 1, 1, [0]⟩ ∧
    Punchcard.claim ⟨List.replicate 32 0, 1, 1, [0]⟩ 0 =
      (⟨List.replicate 32 0, 1, 2, [1]⟩, none) := by
  refine ⟨?_, by rfl, by rfl⟩
  intro data hsp hcc
  obtain ⟨hsz, h7⟩ := space_eq hsp
  have hlen : ¬ data.length < PUNCHCARD_HEADER_LEN := by omega
  have hblen : ¬ (data.drop PUNCHCARD_HEADER_LEN).length ≠ (decodeCapacity data + 7) / 8 := by
    rw [List.length_drop]
    omega
  have hgt : ¬ decodeClaimed data > decodeCapacity data := not_lt.mpr hcc
  unfold Punchcard.from_bytes
  rw [if_neg hlen]
  simp only [bitset_len_of_le h7]
  rw [if_neg hblen, if_neg hgt]

/-- Witness for C10 at `fullyClaimedBuf`. -/
theorem from_bytes_ignores_bitset_witness :
    Punchcard.from_bytes fullyClaimedBuf =
      .ok ⟨fullyClaimedBuf.take 32, decodeCapacity fullyClaimedBuf,
           decodeClaimed fullyClaimedBuf, fullyClaimedBuf.drop PUNCHCARD_HEADER_LEN⟩ :=
  from_bytes_ignores_bitset.1 fullyClaimedBuf (by decide) (by decide)

/-! ## C6 -/

/-- C6: after a claim batch succeeds, `claimed = capacity` transfers the
record's entire balance to the authority — whose balance strictly
increases — zeroes the record's bytes and closes it, while
`claimed < capacity` returns the record exactly as mutated by the batch,
still open and with both balances untouched. -/
theorem claim_settlement (authorityKey : List Nat) (aL rL : Nat)
    (data indices : List Nat) (card card' : Punchcard)
    (hfb : Punchcard.from_bytes data = .ok card)
    (hauth : card.authority = authorityKey)
    (hloop : claimLoop card indices = (card', none))
    (hpos : 0 < rL) (hov : aL + rL < U64_MOD) :
    (card'.claimed = card'.capacity →
        claim authorityKey aL rL data indices =
          .ok ⟨aL + rL, 0, List.replicate data.length 0, true⟩ ∧
        aL < aL + rL) ∧
    (card'.claimed < card'.capacity →
        claim authorityKey aL rL data indices =
          .ok ⟨aL, rL, card'.toBytes, false⟩) := by
  have hmod : (aL + rL) % U64_MOD = aL + rL := Nat.mod_eq_of_lt hov
  constructor
  · intro heq
    constructor
    · simp only [claim, hfb, hloop]
      rw [if_neg (not_not.mpr hauth), if_pos heq, hmod]
    · omega
  · intro hlt
    simp only [claim, hfb, hloop]
    rw [if_neg (not_not.mpr hauth), if_neg (by omega)]

/-- Witness for C6: creating with capacity 4 and claiming {0,1,2,3} fills
the card, so the record's 5 lamports move to the authority (10 to 15), the
49 record bytes are zeroed and the record closes. -/
theorem claim_settlement_witness :
    claim (List.replicate 32 0) 10 5
        (List.replicate 32 0 ++ leBytes 4 ++ leBytes 0 ++ [0]) [0, 1, 2, 3] =
      .ok ⟨15, 0, List.replicate 49 0, true⟩ ∧ 10 < 15 :=
  (claim_settlement (List.replicate 32 0) 10 5
      (List.replicate 32 0 ++ leBytes 4 ++ leBytes 0 ++ [0]) [0, 1, 2, 3]
      ⟨List.replicate 32 0, 4, 0, [0]⟩ ⟨List.replicate 32 0, 4, 4, [15]⟩
      (by rfl) rfl (by rfl) (by decide) (by decide)).1 (by rfl)

/-! ## C7 -/

/-- Little-endian round trip: decoding the 8 bytes of a `u64` value gives
the value back. -/
theorem leU64_leBytes {n : Nat} (h : n < U64_MOD) : leU64 (leBytes n) = n := by
  have h' : n < 2 ^ 64 := h
  simp only [leU64, leBytes, List.foldr_cons, List.foldr_nil]
  norm_num
  omega

/-- `leBytes` always produces exactly 8 bytes. -/
theorem leBytes_length (n : Nat) : (leBytes n).length = 8 := rfl

/-- C7: a successful `create(capacity)` writes a buffer holding the
payer's address as authority, the requested capacity, `claimed = 0` and a
zeroed bitset of exactly `ceil(capacity / 8)` bytes; when `space`
overflows, `create` fails with `InvalidCapacity` and writes no record. -/
theorem create_spec (payerKey : List Nat) (capacity : Nat)
    (hp : payerKey.length = 32) (hc : capacity < U64_MOD) :
    (∀ sz, Punchcard.space capacity = some sz →
        ∃ buf, create payerKey capacity = .ok buf ∧
          buf.take 32 = payerKey ∧
          decodeCapacity buf = capacity ∧
          decodeClaimed buf = 0 ∧
          buf.drop PUNCHCARD_HEADER_LEN = List.replicate ((capacity + 7) / 8) 0) ∧
    (Punchcard.space capacity = none →
        create payerKey capacity = .error ProgramError.invalidCapacity) := by
  constructor
  · intro sz hsp
    obtain ⟨hsz, h7⟩ := space_eq hsp
    refine ⟨payerKey ++ (leBytes capacity ++ (leBytes 0 ++
        List.replicate (sz - PUNCHCARD_HEADER_LEN) 0)), ?_, ?_, ?_, ?_, ?_⟩
    · simp only [create, hsp, List.append_assoc]
    · rw [List.take_left' hp]
    · have hd32 : (payerKey ++ (leBytes capacity ++ (leBytes 0 ++
          List.replicate (sz - PUNCHCARD_HEADER_LEN) 0))).drop 32 =
          leBytes capacity ++ (leBytes 0 ++
            List.replicate (sz - PUNCHCARD_HEADER_LEN) 0) := List.drop_left' hp
      rw [decodeCapacity, hd32, List.take_left' (leBytes_length capacity)]
      exact leU64_leBytes hc
    · have hd32 : (payerKey ++ (leBytes capacity ++ (leBytes 0 ++
          List.replicate (sz - PUNCHCARD_HEADER_LEN) 0))).drop 32 =
          leBytes capacity ++ (leBytes 0 ++
            List.replicate (sz - PUNCHCARD_HEADER_LEN) 0) := List.drop_left' hp
      have hd40 : (payerKey ++ (leBytes capacity ++ (leBytes 0 ++
          List.replicate (sz - PUNCHCARD_HEADER_LEN) 0))).drop 40 =
          leBytes 0 ++ List.replicate (sz - PUNCHCARD_HEADER_LEN) 0 := by
        have hcomp : ((payerKey ++ (leBytes capacity ++ (leBytes 0 ++
            List.replicate (sz - PUNCHCARD_HEADER_LEN) 0))).drop 32).drop 8 =
            (payerKey ++ (leBytes capacity ++ (leBytes 0 ++
              List.replicate (sz - PUNCHCARD_HEADER_LEN) 0))).drop 40 := by
          rw [List.drop_drop]
        rw [← hcomp, hd32, List.drop_left' (leBytes_length capacity)]
      rw [decodeClaimed, hd40, List.take_left' (leBytes_length 0)]
      exact leU64_leBytes (by norm_num [U64_MOD])
    · have hd32 : (payerKey ++ (leBytes capacity ++ (leBytes 0 ++
          List.replicate (sz - PUNCHCARD_HEADER_LEN) 0))).drop 32 =
          leBytes capacity ++ (leBytes 0 ++
            List.replicate (sz - PUNCHCARD_HEADER_LEN) 0) := List.drop_left' hp
      have hd48 : (payerKey ++ (leBytes capacity ++ (leBytes 0 ++
          List.replicate (sz - PUNCHCARD_HEADER_LEN) 0))).drop PUNCHCARD_HEADER_LEN =
          List.replicate (sz - PUNCHCARD_HEADER_LEN) 0 := by
        have hcomp : (((payerKey ++ (leBytes capacity ++ (leBytes 0 ++
            List.replicate (sz - PUNCHCARD_HEADER_LEN) 0))).drop 32).drop 8).drop 8 =
            (payerKey ++ (leBytes capacity ++ (leBytes 0 ++
              List.replicate (sz - PUNCHCARD_HEADER_LEN) 0))).drop PUNCHCARD_HEADER_LEN := by
          rw [List.drop_drop, List.drop_drop]
          rfl
        rw [← hcomp, hd32, List.drop_left' (leBytes_length capacity),
          List.drop_left' (leBytes_length 0)]
      rw [hd48]
      have hrep : sz - PUNCHCARD_HEADER_LEN = (capacity + 7) / 8 := by omega
      rw [hrep]
  · intro hnone
    simp only [create, hnone]

/-- Witness for C7 at payer = 32 zero bytes and capacity 9
(`space 9 = some 50`). -/
theorem create_spec_witness :
    ∃ buf, create (List.replicate 32 0) 9 = .ok buf ∧
      buf.take 32 = List.replicate 32 0 ∧
      decodeCapacity buf = 9 ∧
      decodeClaimed buf = 0 ∧
      buf.drop PUNCHCARD_HEADER_LEN = List.replicate ((9 + 7) / 8) 0 :=
  (create_spec (List.replicate 32 0) 9 (by decide) (by decide)).1 50 (by rfl)
